import Mathlib

/-!
Verification of `trace_sankey_helpers.py`: helper functions turning
probabilistic-trace samples of material flows into edge-list dataframes for
Sankey diagrams, plus small statistics and display helpers.

The Python module is shallowly embedded: numpy arrays become index functions
together with their shape, the ordered process registry becomes an association
list, dataframe rows become records, and numeric values are modelled as exact
rationals.  External library calls (pymc3 hpd, floweaver weave) are abstracted
as parameters or minimal structures, since their code is not part of this
repository.
-/

namespace TraceSankey

/-- One row of the dataframe produced by `inputs_flows_as_dataframe`:
columns (source, target, material, value). -/
structure Record where
  source : String
  target : String
  material : String
  value : ℚ
deriving DecidableEq

/-- One row of the dataframe produced by `flows_from_trace`:
columns (source, target, material, sample, value). -/
structure SampleRecord where
  source : String
  target : String
  material : String
  sample : ℕ
  value : ℚ
deriving DecidableEq

/-- A square 2-D numpy array: `n` is `shape[0]` and `ent i j` is `F[i, j]`. -/
structure Array2 where
  n : ℕ
  ent : ℕ → ℕ → ℚ

/-- Rows appended by the first loop of `inputs_flows_as_dataframe`:
`for i in range(len(I)): if I[i] > 0: flows.append((inputs, possible_inputs[i], ?, I[i]))`. -/
def inputLoopRows (possible_inputs : List String) (I : List ℚ) : List Record :=
  (List.range I.length).filterMap fun i =>
    if 0 < I.getD i 0 then
      some ⟨"inputs", possible_inputs.getD i "", "?", I.getD i 0⟩
    else none

/-- Rows appended by the nested matrix loop of `inputs_flows_as_dataframe`:
`for i in range(Np): for j in range(Np): if F[i, j] > 0: flows.append(...)`. -/
def flowLoopRows (process_ids : List String) (F : Array2) : List Record :=
  (List.range F.n).flatMap fun i =>
    (List.range F.n).filterMap fun j =>
      if 0 < F.ent i j then
        some ⟨process_ids.getD i "", process_ids.getD j "", "?", F.ent i j⟩
      else none

/-- Embedding of `inputs_flows_as_dataframe(processes, possible_inputs, I, F)`:
first one row per index `i` with `I[i] > 0`, then, with
`process_ids = list(processes.keys())`, one row per matrix cell with
`F[i, j] > 0`, scanned row by row. -/
def inputs_flows_as_dataframe {α : Type} (processes : List (String × α))
    (possible_inputs : List String) (I : List ℚ) (F : Array2) : List Record :=
  inputLoopRows possible_inputs I ++ flowLoopRows (processes.map Prod.fst) F

/-- Spec-side description of the input-derived rows: keep the indices with a
strictly positive input value, in increasing order, and emit the record
(inputs, possible_inputs[i], ?, I[i]) for each. -/
def specInputRecords (possible_inputs : List String) (I : List ℚ) : List Record :=
  ((List.range I.length).filter fun i => 0 < I.getD i 0).map fun i =>
    ⟨"inputs", possible_inputs.getD i "", "?", I.getD i 0⟩

/-- All cells (i, j) of an n × n matrix in row-major order. -/
def rowMajorCells (n : ℕ) : List (ℕ × ℕ) :=
  (List.range n).flatMap fun i => (List.range n).map fun j => (i, j)

/-- Spec-side description of the matrix-derived rows: keep the strictly
positive cells in row-major order and emit
(process_ids[i], process_ids[j], ?, F[i, j]) for each. -/
def specFlowRecords (process_ids : List String) (F : Array2) : List Record :=
  ((rowMajorCells F.n).filter fun p => 0 < F.ent p.1 p.2).map fun p =>
    ⟨process_ids.getD p.1 "", process_ids.getD p.2 "", "?", F.ent p.1 p.2⟩

/-- A filterMap whose function is an if-then-some-else-none is a filter
followed by a map. -/
theorem filterMap_ite {α β : Type} (l : List α) (p : α → Prop) [DecidablePred p]
    (g : α → β) :
    (l.filterMap fun x => if p x then some (g x) else none)
      = (l.filter fun x => p x).map g := by
  induction l with
  | nil => rfl
  | cons a t ih =>
    by_cases h : p a <;>
      simp [List.filterMap_cons, List.filter_cons, h, ih]

/-- The first loop computes exactly the spec-side input rows. -/
theorem inputLoopRows_eq_spec (possible_inputs : List String) (I : List ℚ) :
    inputLoopRows possible_inputs I = specInputRecords possible_inputs I := by
  unfold inputLoopRows specInputRecords
  exact filterMap_ite (List.range I.length) (fun i => 0 < I.getD i 0)
    (fun i => Record.mk "inputs" (possible_inputs.getD i "") "?" (I.getD i 0))

/-- The nested matrix loop computes exactly the spec-side matrix rows. -/
theorem flowLoopRows_eq_spec (process_ids : List String) (F : Array2) :
    flowLoopRows process_ids F = specFlowRecords process_ids F := by
  unfold flowLoopRows specFlowRecords rowMajorCells
  rw [List.filter_flatMap, List.map_flatMap]
  have h : (fun i => (List.range F.n).filterMap fun j =>
        if 0 < F.ent i j then
          some (⟨process_ids.getD i "", process_ids.getD j "", "?", F.ent i j⟩ : Record)
        else none)
      = fun i => ((((List.range F.n).map fun j => (i, j)).filter
          fun p => decide (0 < F.ent p.1 p.2)).map fun p =>
            (⟨process_ids.getD p.1 "", process_ids.getD p.2 "", "?", F.ent p.1 p.2⟩ : Record)) := by
    funext i
    rw [filterMap_ite (List.range F.n) (fun j => 0 < F.ent i j)
      (fun j => Record.mk (process_ids.getD i "") (process_ids.getD j "") "?" (F.ent i j)),
      List.filter_map, List.map_map]
    rfl
  rw [h]

/-- The dataframe splits as the spec-side input rows followed by the
spec-side matrix rows. -/
theorem inputs_flows_as_dataframe_decomp {α : Type} (processes : List (String × α))
    (possible_inputs : List String) (I : List ℚ) (F : Array2) :
    inputs_flows_as_dataframe processes possible_inputs I F
      = specInputRecords possible_inputs I
        ++ specFlowRecords (processes.map Prod.fst) F := by
  unfold inputs_flows_as_dataframe
  rw [inputLoopRows_eq_spec, flowLoopRows_eq_spec]

/-- A trace of posterior samples: `inputs` is a 2-D array of shape
(nsamples, ninputs) holding `trace[inputs]`, and `F` a 3-D array of shape
(nsamples, np, np) holding `trace[F]`. -/
structure Trace where
  nsamples : ℕ
  ninputs : ℕ
  np : ℕ
  inputs : ℕ → ℕ → ℚ
  F : ℕ → ℕ → ℕ → ℚ

/-- The row indices selected by the Python slice `start::step` on an array of
`n` rows: every `i < n` with `start ≤ i` and `i ≡ start  [MOD step]`. -/
def sliceIndices (n start step : ℕ) : List ℕ :=
  (List.range n).filter fun i => start ≤ i ∧ (i - start) % step = 0

/-- Embedding of `flows_from_trace(processes, possible_inputs, trace, nburn, thin)`:
`inputs = trace[inputs, nburn::thin]`, `flows = trace[F, nburn::thin]`, then
for every row `i` of the sliced arrays emit the rows with positive input
entries followed by the rows with positive matrix cells, each tagged with the
sliced row index `i` in the sample column. -/
def flows_from_trace {α : Type} (processes : List (String × α))
    (possible_inputs : List String) (trace : Trace) (nburn thin : ℕ) :
    List SampleRecord :=
  (List.range (sliceIndices trace.nsamples nburn thin).length).flatMap fun i =>
    ((List.range trace.ninputs).filterMap fun j =>
      if 0 < trace.inputs ((sliceIndices trace.nsamples nburn thin).getD i 0) j then
        some ⟨"inputs", possible_inputs.getD j "", "?", i,
          trace.inputs ((sliceIndices trace.nsamples nburn thin).getD i 0) j⟩
      else none)
    ++ ((List.range trace.np).flatMap fun j =>
      (List.range trace.np).filterMap fun k =>
        if 0 < trace.F ((sliceIndices trace.nsamples nburn thin).getD i 0) j k then
          some ⟨(processes.map Prod.fst).getD j "",
            (processes.map Prod.fst).getD k "", "?", i,
            trace.F ((sliceIndices trace.nsamples nburn thin).getD i 0) j k⟩
        else none)

/-- Spec-side description of the input-derived rows one sample contributes:
`s` is the original sample index in the trace, `idx` the tag written to the
sample column. -/
def sampleInputRecords (possible_inputs : List String) (trace : Trace)
    (s idx : ℕ) : List SampleRecord :=
  ((List.range trace.ninputs).filter fun j => 0 < trace.inputs s j).map fun j =>
    ⟨"inputs", possible_inputs.getD j "", "?", idx, trace.inputs s j⟩

/-- Spec-side description of the matrix-derived rows one sample contributes. -/
def sampleFlowRecords (process_ids : List String) (trace : Trace)
    (s idx : ℕ) : List SampleRecord :=
  ((rowMajorCells trace.np).filter fun p => 0 < trace.F s p.1 p.2).map fun p =>
    ⟨process_ids.getD p.1 "", process_ids.getD p.2 "", "?", idx, trace.F s p.1 p.2⟩

/-- All rows one sample contributes: input-derived first, matrix-derived after. -/
def sampleRecords (process_ids possible_inputs : List String) (trace : Trace)
    (s idx : ℕ) : List SampleRecord :=
  sampleInputRecords possible_inputs trace s idx
    ++ sampleFlowRecords process_ids trace s idx

/-- The trace dataframe is the concatenation, over the positions `i` of the
slice, of the rows of the sample at slice position `i` tagged with `i`. -/
theorem flows_from_trace_decomp {α : Type} (processes : List (String × α))
    (possible_inputs : List String) (trace : Trace) (nburn thin : ℕ) :
    flows_from_trace processes possible_inputs trace nburn thin
      = (List.range (sliceIndices trace.nsamples nburn thin).length).flatMap
          fun i => sampleRecords (processes.map Prod.fst) possible_inputs trace
            ((sliceIndices trace.nsamples nburn thin).getD i 0) i := by
  unfold flows_from_trace sampleRecords
  refine List.flatMap_congr fun i _ => ?_
  congr 1
  · unfold sampleInputRecords
    exact filterMap_ite (List.range trace.ninputs)
      (fun j => 0 < trace.inputs ((sliceIndices trace.nsamples nburn thin).getD i 0) j)
      (fun j => SampleRecord.mk "inputs" (possible_inputs.getD j "") "?" i
        (trace.inputs ((sliceIndices trace.nsamples nburn thin).getD i 0) j))
  · unfold sampleFlowRecords rowMajorCells
    rw [List.filter_flatMap, List.map_flatMap]
    refine List.flatMap_congr fun j _ => ?_
    rw [filterMap_ite (List.range trace.np)
      (fun k => 0 < trace.F ((sliceIndices trace.nsamples nburn thin).getD i 0) j k)
      (fun k => SampleRecord.mk ((processes.map Prod.fst).getD j "")
        ((processes.map Prod.fst).getD k "") "?" i
        (trace.F ((sliceIndices trace.nsamples nburn thin).getD i 0) j k)),
      List.filter_map, List.map_map]
    rfl

/-- Membership in the row-major cell list is exactly being a cell of the
n × n grid. -/
theorem mem_rowMajorCells {n : ℕ} {p : ℕ × ℕ} :
    p ∈ rowMajorCells n ↔ p.1 < n ∧ p.2 < n := by
  cases p with
  | mk a b =>
    simp only [rowMajorCells, List.mem_flatMap, List.mem_map, List.mem_range]
    constructor
    · rintro ⟨i, hi, j, hj, h⟩
      cases h
      exact ⟨hi, hj⟩
    · rintro ⟨ha, hb⟩
      exact ⟨a, ha, b, hb, rfl⟩

/-- Every spec-side input row has material "?" and a strictly positive value
read off the inputs vector at an in-range index. -/
theorem mem_specInputRecords {possible_inputs : List String} {I : List ℚ}
    {r : Record} (h : r ∈ specInputRecords possible_inputs I) :
    r.material = "?" ∧ ∃ i < I.length, 0 < I.getD i 0 ∧ r.value = I.getD i 0 := by
  unfold specInputRecords at h
  obtain ⟨i, hi, rfl⟩ := List.mem_map.mp h
  rw [List.mem_filter, List.mem_range, decide_eq_true_eq] at hi
  exact ⟨rfl, i, hi.1, hi.2, rfl⟩

/-- Every spec-side matrix row has material "?" and a strictly positive value
read off the flow matrix at an in-range cell. -/
theorem mem_specFlowRecords {process_ids : List String} {F : Array2}
    {r : Record} (h : r ∈ specFlowRecords process_ids F) :
    r.material = "?" ∧ ∃ i < F.n, ∃ j < F.n, 0 < F.ent i j ∧ r.value = F.ent i j := by
  unfold specFlowRecords at h
  obtain ⟨p, hp, rfl⟩ := List.mem_map.mp h
  rw [List.mem_filter, decide_eq_true_eq, mem_rowMajorCells] at hp
  exact ⟨rfl, p.1, hp.1.1, p.2, hp.1.2, hp.2, rfl⟩

/-- Claim C1: with lengths aligned as the invariant requires, the dataframe
consists of the positive-input rows (inputs, possible_inputs[i], ?, I[i]) in
increasing index order, followed by the positive-cell rows
(process_ids[i], process_ids[j], ?, F[i, j]) in row-major order with
process_ids the registry key order, and every row has material "?". -/
theorem inputs_flows_as_dataframe_ordering {α : Type} (processes : List (String × α))
    (possible_inputs : List String) (I : List ℚ) (F : Array2)
    (hI : I.length = possible_inputs.length) (hP : processes.length = F.n) :
    inputs_flows_as_dataframe processes possible_inputs I F
      = specInputRecords possible_inputs I
        ++ specFlowRecords (processes.map Prod.fst) F
    ∧ ∀ r ∈ inputs_flows_as_dataframe processes possible_inputs I F,
        r.material = "?" := by
  refine ⟨inputs_flows_as_dataframe_decomp .., ?_⟩
  intro r hr
  rw [inputs_flows_as_dataframe_decomp] at hr
  rcases List.mem_append.mp hr with h | h
  · exact (mem_specInputRecords h).1
  · exact (mem_specFlowRecords h).1

/-- Process registry of the worked example: keys A, B in that order. -/
def exampleProcesses : List (String × Unit) := [("A", ()), ("B", ())]

/-- Flow matrix of the worked example: F = [[0, 2], [0, 0]]. -/
def exampleF : Array2 :=
  ⟨2, fun i j => if i = 0 ∧ j = 1 then 2 else 0⟩

/-- Witness for the ordering theorem at the worked example. -/
theorem inputs_flows_as_dataframe_ordering_witness :
    inputs_flows_as_dataframe exampleProcesses ["x", "y"] [5, 0] exampleF
      = specInputRecords ["x", "y"] [5, 0]
        ++ specFlowRecords (exampleProcesses.map Prod.fst) exampleF
    ∧ ∀ r ∈ inputs_flows_as_dataframe exampleProcesses ["x", "y"] [5, 0] exampleF,
        r.material = "?" :=
  inputs_flows_as_dataframe_ordering exampleProcesses ["x", "y"] [5, 0] exampleF
    (by decide) (by decide)

/-- Claim C5: on registry {A, B}, possible inputs [x, y], inputs [5, 0] and
F = [[0, 2], [0, 0]], the dataframe is exactly
[(inputs, x, ?, 5), (A, B, ?, 2)]. -/
theorem inputs_flows_as_dataframe_example :
    inputs_flows_as_dataframe exampleProcesses ["x", "y"] [5, 0] exampleF
      = [⟨"inputs", "x", "?", 5⟩, ⟨"A", "B", "?", 2⟩] := by
  decide

/-- Every spec-side per-sample input row has a strictly positive value read
off the inputs array of its sample. -/
theorem mem_sampleInputRecords {possible_inputs : List String} {trace : Trace}
    {s idx : ℕ} {r : SampleRecord}
    (h : r ∈ sampleInputRecords possible_inputs trace s idx) :
    r.sample = idx ∧ ∃ j < trace.ninputs, 0 < trace.inputs s j ∧ r.value = trace.inputs s j := by
  unfold sampleInputRecords at h
  obtain ⟨j, hj, rfl⟩ := List.mem_map.mp h
  rw [List.mem_filter, List.mem_range, decide_eq_true_eq] at hj
  exact ⟨rfl, j, hj.1, hj.2, rfl⟩

/-- Every spec-side per-sample matrix row has a strictly positive value read
off the flow array of its sample. -/
theorem mem_sampleFlowRecords {process_ids : List String} {trace : Trace}
    {s idx : ℕ} {r : SampleRecord}
    (h : r ∈ sampleFlowRecords process_ids trace s idx) :
    r.sample = idx ∧ ∃ j < trace.np, ∃ k < trace.np,
      0 < trace.F s j k ∧ r.value = trace.F s j k := by
  unfold sampleFlowRecords at h
  obtain ⟨p, hp, rfl⟩ := List.mem_map.mp h
  rw [List.mem_filter, decide_eq_true_eq, mem_rowMajorCells] at hp
  exact ⟨rfl, p.1, hp.1.1, p.2, hp.1.2, hp.2, rfl⟩

/-- Rows of a sample carry that sample's tag and a strictly positive value. -/
theorem mem_sampleRecords {process_ids possible_inputs : List String}
    {trace : Trace} {s idx : ℕ} {r : SampleRecord}
    (h : r ∈ sampleRecords process_ids possible_inputs trace s idx) :
    r.sample = idx ∧ 0 < r.value := by
  rcases List.mem_append.mp h with h | h
  · obtain ⟨hs, j, _, hpos, hv⟩ := mem_sampleInputRecords h
    exact ⟨hs, hv ▸ hpos⟩
  · obtain ⟨hs, j, _, k, _, hpos, hv⟩ := mem_sampleFlowRecords h
    exact ⟨hs, hv ▸ hpos⟩

/-- Claim C2: every row emitted by `inputs_flows_as_dataframe` takes its value
from a strictly positive entry of the inputs vector or of the flow matrix,
and every row emitted by `flows_from_trace` has a strictly positive value;
zero or negative entries never produce rows. -/
theorem only_positive_entries_become_edges {α : Type} (processes : List (String × α))
    (possible_inputs : List String) (I : List ℚ) (F : Array2)
    (trace : Trace) (nburn thin : ℕ) :
    (∀ r ∈ inputs_flows_as_dataframe processes possible_inputs I F,
      0 < r.value ∧
        ((∃ i < I.length, 0 < I.getD i 0 ∧ r.value = I.getD i 0)
          ∨ (∃ i < F.n, ∃ j < F.n, 0 < F.ent i j ∧ r.value = F.ent i j)))
    ∧ (∀ r ∈ flows_from_trace processes possible_inputs trace nburn thin,
        0 < r.value) := by
  constructor
  · intro r hr
    rw [inputs_flows_as_dataframe_decomp] at hr
    rcases List.mem_append.mp hr with h | h
    · obtain ⟨_, i, hi, hpos, hv⟩ := mem_specInputRecords h
      exact ⟨hv ▸ hpos, Or.inl ⟨i, hi, hpos, hv⟩⟩
    · obtain ⟨_, i, hi, j, hj, hpos, hv⟩ := mem_specFlowRecords h
      exact ⟨hv ▸ hpos, Or.inr ⟨i, hi, j, hj, hpos, hv⟩⟩
  · intro r hr
    rw [flows_from_trace_decomp] at hr
    obtain ⟨i, _, hmem⟩ := List.mem_flatMap.mp hr
    exact (mem_sampleRecords hmem).2

/-- Trace of the worked example: 3 samples, 2 inputs, 2 processes; only
sample 2 has positive entries. -/
def exampleTrace : Trace :=
  ⟨3, 2, 2,
    fun s j => if s = 2 ∧ j = 0 then 4 else 0,
    fun s i j => if s = 2 ∧ i = 0 ∧ j = 1 then 3 else 0⟩

/-- Witness for the positivity theorem: the first row of the worked example
has a positive value taken from the inputs vector. -/
theorem only_positive_entries_become_edges_witness :
    0 < (Record.mk "inputs" "x" "?" 5).value ∧
      ((∃ i < ([5, 0] : List ℚ).length, 0 < ([5, 0] : List ℚ).getD i 0 ∧
          (Record.mk "inputs" "x" "?" 5).value = ([5, 0] : List ℚ).getD i 0)
        ∨ (∃ i < exampleF.n, ∃ j < exampleF.n,
            0 < exampleF.ent i j ∧ (Record.mk "inputs" "x" "?" 5).value = exampleF.ent i j)) :=
  (only_positive_entries_become_edges exampleProcesses ["x", "y"] [5, 0] exampleF
    exampleTrace 0 1).1 (Record.mk "inputs" "x" "?" 5) (by decide)

/-- Claim C3: the rows after the input-derived prefix are in bijection with
the strictly positive cells of the flow matrix: their number is the number of
cells of F that are strictly positive. -/
theorem matrix_edge_record_count {α : Type} (processes : List (String × α))
    (possible_inputs : List String) (I : List ℚ) (F : Array2) :
    ((inputs_flows_as_dataframe processes possible_inputs I F).drop
        (specInputRecords possible_inputs I).length).length
      = ((Finset.range F.n ×ˢ Finset.range F.n).filter
          fun p => 0 < F.ent p.1 p.2).card := by
  rw [inputs_flows_as_dataframe_decomp, List.drop_left]
  unfold specFlowRecords
  rw [List.length_map]
  have hnodup : (rowMajorCells F.n).Nodup := by
    unfold rowMajorCells
    rw [List.nodup_flatMap]
    constructor
    · intro a _
      exact (List.nodup_range _).map fun x y h => (Prod.mk.injEq ..).mp h |>.2
    · refine (List.pairwise_lt_range _).imp ?_
      intro a b hab x hxa hxb
      obtain ⟨j, _, rfl⟩ := List.mem_map.mp hxa
      obtain ⟨k, _, hk⟩ := List.mem_map.mp hxb
      exact absurd ((Prod.mk.injEq ..).mp hk).1 (Nat.ne_of_lt hab).symm
  have hfil : ((rowMajorCells F.n).filter fun p => decide (0 < F.ent p.1 p.2)).Nodup :=
    hnodup.filter _
  rw [← List.toFinset_card_of_nodup hfil, List.toFinset_filter]
  congr 1
  ext p
  rw [Finset.mem_filter, Finset.mem_filter, List.mem_toFinset, mem_rowMajorCells,
    Finset.mem_product, Finset.mem_range, Finset.mem_range, decide_eq_true_eq]

/-- Looping over the positions of a list while reading the element at each
position is the same as looping over the enumerated list. -/
theorem flatMap_range_getD {β : Type} (l : List ℕ) (f : ℕ → ℕ → List β) :
    (List.range l.length).flatMap (fun i => f i (l.getD i 0))
      = l.enum.flatMap fun p => f p.1 p.2 := by
  show ((List.range l.length).map fun i => f i (l.getD i 0)).flatten
    = (l.enum.map fun p => f p.1 p.2).flatten
  congr 1
  refine List.ext_getElem (by simp [List.enum_length]) ?_
  intro i h1 h2
  simp only [List.getElem_map, List.getElem_range, List.getElem_enum]
  rw [List.getD_eq_getElem]

/-- The selected row indices are exactly the sample positions at or past the
burn-in that land on the thinning grid. -/
theorem mem_sliceIndices {n start step s : ℕ} :
    s ∈ sliceIndices n start step ↔ start ≤ s ∧ s < n ∧ (s - start) % step = 0 := by
  unfold sliceIndices
  rw [List.mem_filter, List.mem_range, decide_eq_true_eq]
  tauto

/-- Claim C4: `flows_from_trace` walks exactly the slice `trace[nburn::thin]`
(the samples `s` with `nburn ≤ s < nsamples` and `s ≡ nburn` modulo `thin`, in
order), emitting the rows of the sample at slice position `i` tagged `i`, so
every row's sample tag is a valid position in the thinned, burned range. -/
theorem flows_from_trace_slice {α : Type} (processes : List (String × α))
    (possible_inputs : List String) (trace : Trace) (nburn thin : ℕ)
    (hthin : 0 < thin) :
    flows_from_trace processes possible_inputs trace nburn thin
      = (sliceIndices trace.nsamples nburn thin).enum.flatMap
          (fun p => sampleRecords (processes.map Prod.fst) possible_inputs trace p.2 p.1)
    ∧ (∀ s, s ∈ sliceIndices trace.nsamples nburn thin ↔
        nburn ≤ s ∧ s < trace.nsamples ∧ (s - nburn) % thin = 0)
    ∧ ∀ r ∈ flows_from_trace processes possible_inputs trace nburn thin,
        r.sample < (sliceIndices trace.nsamples nburn thin).length := by
  refine ⟨?_, fun s => mem_sliceIndices, ?_⟩
  · rw [flows_from_trace_decomp]
    exact flatMap_range_getD (sliceIndices trace.nsamples nburn thin)
      (fun i s => sampleRecords (processes.map Prod.fst) possible_inputs trace s i)
  · intro r hr
    rw [flows_from_trace_decomp] at hr
    obtain ⟨i, hi, hmem⟩ := List.mem_flatMap.mp hr
    rw [List.mem_range] at hi
    exact (mem_sampleRecords hmem).1 ▸ hi

/-- Witness for the slice theorem: burn-in 1 and thinning 2 on the
three-sample example trace select exactly sample 1. -/
theorem flows_from_trace_slice_witness :
    flows_from_trace exampleProcesses ["x", "y"] exampleTrace 1 2
      = (sliceIndices exampleTrace.nsamples 1 2).enum.flatMap
          (fun p => sampleRecords (exampleProcesses.map Prod.fst) ["x", "y"] exampleTrace p.2 p.1)
    ∧ (∀ s, s ∈ sliceIndices exampleTrace.nsamples 1 2 ↔
        1 ≤ s ∧ s < exampleTrace.nsamples ∧ (s - 1) % 2 = 0)
    ∧ ∀ r ∈ flows_from_trace exampleProcesses ["x", "y"] exampleTrace 1 2,
        r.sample < (sliceIndices exampleTrace.nsamples 1 2).length :=
  flows_from_trace_slice exampleProcesses ["x", "y"] exampleTrace 1 2 (by decide)

/-- Concatenating, over `j < n`, lists that are empty except at `j = i` keeps
only the list at `i`, when `i < n`. -/
theorem flatMap_range_single {β : Type} (n i : ℕ) (c : ℕ → List β) :
    ((List.range n).flatMap fun j => if j = i then c j else [])
      = if i < n then c i else [] := by
  induction n with
  | zero => simp
  | succ n ih =>
    rw [List.range_succ, List.flatMap_append, ih]
    by_cases h : i = n
    · subst h
      simp [Nat.lt_irrefl]
    · by_cases hlt : i < n
      · simp [h, Ne.symm h, hlt, Nat.lt_succ_of_lt hlt]
      · have : ¬ i < n + 1 := by omega
        simp [h, Ne.symm h, hlt, this]

/-- Claim C9: in the trace dataframe the sample column is nondecreasing from
the first row to the last, and the rows of each sample tag `i` are exactly
the input-derived rows of that sample followed by its matrix-derived rows. -/
theorem flows_from_trace_sample_blocks {α : Type} (processes : List (String × α))
    (possible_inputs : List String) (trace : Trace) (nburn thin : ℕ) :
    List.Sorted (· ≤ ·)
      ((flows_from_trace processes possible_inputs trace nburn thin).map
        SampleRecord.sample)
    ∧ ∀ i : ℕ,
        (flows_from_trace processes possible_inputs trace nburn thin).filter
            (fun r => r.sample = i)
          = if i < (sliceIndices trace.nsamples nburn thin).length then
              sampleInputRecords possible_inputs trace
                  ((sliceIndices trace.nsamples nburn thin).getD i 0) i
                ++ sampleFlowRecords (processes.map Prod.fst) trace
                  ((sliceIndices trace.nsamples nburn thin).getD i 0) i
            else [] := by
  constructor
  · rw [flows_from_trace_decomp, List.map_flatMap]
    refine List.pairwise_flatMap.mpr ⟨?_, ?_⟩
    · intro a _
      refine List.pairwise_of_forall_mem_list ?_
      intro x hx y hy
      obtain ⟨rx, hrx, rfl⟩ := List.mem_map.mp hx
      obtain ⟨ry, hry, rfl⟩ := List.mem_map.mp hy
      rw [(mem_sampleRecords hrx).1, (mem_sampleRecords hry).1]
    · refine (List.pairwise_lt_range _).imp ?_
      intro a b hab x hx y hy
      obtain ⟨rx, hrx, rfl⟩ := List.mem_map.mp hx
      obtain ⟨ry, hry, rfl⟩ := List.mem_map.mp hy
      rw [(mem_sampleRecords hrx).1, (mem_sampleRecords hry).1]
      exact Nat.le_of_lt hab
  · intro i
    rw [flows_from_trace_decomp, List.filter_flatMap]
    have h : ∀ j ∈ List.range (sliceIndices trace.nsamples nburn thin).length,
        (sampleRecords (processes.map Prod.fst) possible_inputs trace
            ((sliceIndices trace.nsamples nburn thin).getD j 0) j).filter
            (fun r => decide (r.sample = i))
          = if j = i then
              sampleRecords (processes.map Prod.fst) possible_inputs trace
                ((sliceIndices trace.nsamples nburn thin).getD j 0) j
            else [] := by
      intro j _
      by_cases hj : j = i
      · rw [if_pos hj]
        refine List.filter_eq_self.mpr ?_
        intro r hr
        rw [decide_eq_true_eq, (mem_sampleRecords hr).1]
        exact hj
      · rw [if_neg hj]
        refine List.filter_eq_nil_iff.mpr ?_
        intro r hr
        rw [decide_eq_true_eq, (mem_sampleRecords hr).1]
        exact hj
    rw [List.flatMap_congr h, flatMap_range_single]
    by_cases hi : i < (sliceIndices trace.nsamples nburn thin).length
    · rw [if_pos hi, if_pos hi]
      rfl
    · rw [if_neg hi, if_neg hi]

/-- Embedding of `hpd_range(x)`: the high-probability-density interval is
computed by the external pymc3 call, modelled as the parameter `hpd`
returning the pair (hpd[0], hpd[1]); the range is hpd[1] - hpd[0]. -/
def hpd_range (hpd : List ℚ → ℚ × ℚ) (x : List ℚ) : ℚ :=
  (hpd x).2 - (hpd x).1

/-- Mean of a 1-D numpy array: the sum divided by the length. -/
def npMean (l : List ℚ) : ℚ := l.sum / l.length

namespace AbsoluteHPDRangeScale

/-- Embedding of `AbsoluteHPDRangeScale.get_value(self, link, measures)`:
the credible-interval range of measures[value]. -/
def get_value {L : Type} (hpd : List ℚ → ℚ × ℚ) (link : L)
    (measures : String → List ℚ) : ℚ :=
  hpd_range hpd (measures "value")

end AbsoluteHPDRangeScale

namespace NormalisedHPDRangeScale

/-- Embedding of `NormalisedHPDRangeScale.get_value(self, link, measures)`:
the credible-interval range of measures[value] divided by its mean. -/
def get_value {L : Type} (hpd : List ℚ → ℚ × ℚ) (link : L)
    (measures : String → List ℚ) : ℚ :=
  hpd_range hpd (measures "value") / npMean (measures "value")

end NormalisedHPDRangeScale

/-- Claim C6: on every link and measures mapping with nonzero mean value, the
normalised scale value is exactly the absolute scale value divided by the
mean of measures[value], and both variants compute the credible-interval
range `hpd_range` of measures[value], differing in nothing else. -/
theorem normalised_vs_absolute_scale {L : Type} (hpd : List ℚ → ℚ × ℚ)
    (link : L) (measures : String → List ℚ)
    (hmean : npMean (measures "value") ≠ 0) :
    NormalisedHPDRangeScale.get_value hpd link measures
      = AbsoluteHPDRangeScale.get_value hpd link measures
          / npMean (measures "value")
    ∧ AbsoluteHPDRangeScale.get_value hpd link measures
      = hpd_range hpd (measures "value")
    ∧ NormalisedHPDRangeScale.get_value hpd link measures
      = hpd_range hpd (measures "value") / npMean (measures "value") :=
  ⟨rfl, rfl, rfl⟩

/-- Witness for the scale comparison, on measures value [1, 3] whose mean 2
is nonzero and the interval (0, sum). -/
theorem normalised_vs_absolute_scale_witness :
    NormalisedHPDRangeScale.get_value (fun l => ((0 : ℚ), l.sum)) ()
        (fun _ => [1, 3])
      = AbsoluteHPDRangeScale.get_value (fun l => ((0 : ℚ), l.sum)) ()
          (fun _ => [1, 3]) / npMean [1, 3]
    ∧ AbsoluteHPDRangeScale.get_value (fun l => ((0 : ℚ), l.sum)) ()
        (fun _ => [1, 3]) = hpd_range (fun l => ((0 : ℚ), l.sum)) [1, 3]
    ∧ NormalisedHPDRangeScale.get_value (fun l => ((0 : ℚ), l.sum)) ()
        (fun _ => [1, 3])
      = hpd_range (fun l => ((0 : ℚ), l.sum)) [1, 3] / npMean [1, 3] :=
  normalised_vs_absolute_scale (fun l => ((0 : ℚ), l.sum)) ()
    (fun _ => [1, 3]) (by norm_num [npMean])

/-- Python exceptions this module can meet. -/
inductive PyExc where
  | keyboardInterrupt
  | nameError
deriving DecidableEq

/-- Body of the animation loop of `animate_samples`: `frames` are the sample
indices still to show, `k` counts iterations already run, and `interruptAt`
is the iteration during which the user raises KeyboardInterrupt (none for
never).  Returns the indices actually shown and the exception, if any,
escaping the loop. -/
def animLoop (frames : List ℕ) (k : ℕ) (interruptAt : Option ℕ) :
    List ℕ × Option PyExc :=
  match frames with
  | [] => ([], none)
  | f :: rest =>
    if interruptAt = some k then ([], some PyExc.keyboardInterrupt)
    else
      let r := animLoop rest (k + 1) interruptAt
      (f :: r.1, r.2)

/-- Embedding of the `play` click handler of `animate_samples`: run the loop
over `range(0, len(trace), 10)` and catch KeyboardInterrupt by returning. -/
def play (ntrace : ℕ) (interruptAt : Option ℕ) : List ℕ × Option PyExc :=
  match animLoop (sliceIndices ntrace 0 10) 0 interruptAt with
  | (frames, some PyExc.keyboardInterrupt) => (frames, none)
  | r => r

/-- The animation loop either finishes or escapes with KeyboardInterrupt;
no other exception arises in it. -/
theorem animLoop_exc (frames : List ℕ) (k : ℕ) (interruptAt : Option ℕ) :
    (animLoop frames k interruptAt).2 = none
      ∨ (animLoop frames k interruptAt).2 = some PyExc.keyboardInterrupt := by
  induction frames generalizing k with
  | nil => exact Or.inl rfl
  | cons f rest ih =>
    by_cases h : interruptAt = some k
    · right
      simp [animLoop, h]
    · rcases ih (k + 1) with hh | hh <;> [left; right] <;>
        simpa [animLoop, h] using hh

/-- Claim C7: whether or not a KeyboardInterrupt is raised at some iteration
of the animation loop, the play handler catches it and returns normally: no
exception ever escapes `play`. -/
theorem play_catches_interrupt (ntrace : ℕ) (interruptAt : Option ℕ) :
    (play ntrace interruptAt).2 = none := by
  have h := animLoop_exc (sliceIndices ntrace 0 10) 0 interruptAt
  unfold play
  rcases hx : animLoop (sliceIndices ntrace 0 10) 0 interruptAt with ⟨fr, exc⟩
  rw [hx] at h
  rcases exc with _ | e
  · rfl
  · cases e
    · rfl
    · simp at h

/-- Minimal model of the floweaver scale object as configured by
`weave_variance`: which variant was chosen and the domain set on it. -/
structure ScaleObj where
  normed : Bool
  domain : Option (ℚ × ℚ)
deriving DecidableEq

/-- Model of the external weave call's result, keeping what `weave_variance`
hands to it. -/
structure WeaveResult (Flows SDD : Type) where
  flows : Flows
  sdd : SDD
  scaleUsed : ScaleObj

/-- Embedding of `weave_variance(flows, sdd, normed, vlim, palette)`: build
the normalised or the absolute scale, set its domain when vlim is given,
weave, and return the result together with the scale domain. -/
def weave_variance {Flows SDD Palette : Type} (flows : Flows) (sdd : SDD)
    (normed : Bool) (vlim : Option (ℚ × ℚ)) (palette : Palette) :
    WeaveResult Flows SDD × Option (ℚ × ℚ) :=
  let scale : ScaleObj :=
    match vlim with
    | some v => ⟨normed, some v⟩
    | none => ⟨normed, none⟩
  (⟨flows, sdd, scale⟩, scale.domain)

/-- Names bound at the top level of trace_sankey_helpers.py: the imports and
the module-level functions and classes, in order of appearance. -/
def moduleTopLevelNames : List String :=
  ["time", "np", "pd", "ipywidgets", "Dataset", "weave", "qualitative",
   "sequential", "inputs_flows_as_dataframe", "flows_from_trace",
   "show_sample", "animate_samples", "floweaver", "SankeyWidget", "mpl",
   "plt", "pm", "hpd_range", "rgb2hex", "weave_variance", "show_variance",
   "save_variance", "_calc_variance", "AbsoluteHPDRangeScale",
   "NormalisedHPDRangeScale", "colorbar"]

/-- Local names in scope inside `show_variance` when the colorbar call is
evaluated: its parameters and the tuple assigned from `weave_variance`. -/
def showVarianceLocalNames : List String :=
  ["flows", "sdd", "normed", "vlim", "width", "palette", "result"]

/-- Python name resolution inside `show_variance`: a name resolves when it is
a local or a module-level global. -/
def resolvesInShowVariance (n : String) : Bool :=
  showVarianceLocalNames.contains n || moduleTopLevelNames.contains n

/-- Model of the widget returned by `result.to_widget(...)`. -/
structure WidgetObj (Flows SDD : Type) where
  result : WeaveResult Flows SDD
  width : ℕ
  height : ℕ

/-- Embedding of `show_variance(flows, sdd, normed, vlim, width, palette)`:
call `weave_variance`, then evaluate
`colorbar(palette, scale.domain[0], scale.domain[1], ...)`, whose arguments
read the name `scale`; when that name is unbound the lookup raises
NameError, otherwise the widget built from the result is returned. -/
def show_variance {Flows SDD Palette : Type} (flows : Flows) (sdd : SDD)
    (normed : Bool) (vlim : Option (ℚ × ℚ)) (width : ℕ) (palette : Palette) :
    Except PyExc (WidgetObj Flows SDD) :=
  let rv := weave_variance flows sdd normed vlim palette
  if resolvesInShowVariance "scale" then
    Except.ok ⟨rv.1, width, 400⟩
  else
    Except.error PyExc.nameError

/-- Claim C8: `weave_variance` returns on every input of the model, and
`show_variance` then reads the name `scale`, which neither its local scope
nor the module scope binds, so it raises NameError and never returns a
widget. -/
theorem show_variance_raises_nameError {Flows SDD Palette : Type}
    (flows : Flows) (sdd : SDD) (normed : Bool) (vlim : Option (ℚ × ℚ))
    (width : ℕ) (palette : Palette) :
    show_variance flows sdd normed vlim width palette
      = Except.error PyExc.nameError := by
  have h : resolvesInShowVariance "scale" = false := by decide
  unfold show_variance
  rw [h]
  rfl

/-- numpy rounding to the nearest integer, halves to the nearest even
integer. -/
def np_round (q : ℚ) : ℤ :=
  if q - Int.floor q < 1/2 then Int.floor q
  else if 1/2 < q - Int.floor q then Int.floor q + 1
  else if Int.floor q % 2 = 0 then Int.floor q else Int.floor q + 1

/-- Rendering of the %02x conversion for a nonnegative integer: lowercase
hexadecimal, left-padded with 0 to width two. -/
def pyHex02 (n : ℕ) : String :=
  if (Nat.toDigits 16 n).length < 2 then String.mk ('0' :: Nat.toDigits 16 n)
  else String.mk (Nat.toDigits 16 n)

/-- Embedding of `rgb2hex(rgb)`: take the first three components, scale each
by 255, round, and format as #RRGGBB; with fewer than three components the
tuple does not fill the three conversions and the % formatting fails. -/
def rgb2hex (rgb : List ℚ) : Option String :=
  match rgb with
  | r :: g :: b :: _ =>
    some ("#" ++ pyHex02 (np_round (r * 255)).toNat
      ++ pyHex02 (np_round (g * 255)).toNat
      ++ pyHex02 (np_round (b * 255)).toNat)
  | _ => none

/-- numpy rounding returns the floor, or the floor plus one and only when the
fractional part is at least one half. -/
theorem np_round_eq_floor_or (q : ℚ) :
    np_round q = Int.floor q
      ∨ (np_round q = Int.floor q + 1 ∧ (1/2 : ℚ) ≤ q - Int.floor q) := by
  unfold np_round
  split_ifs with h1 h2 h3
  · exact Or.inl rfl
  · exact Or.inr ⟨rfl, le_of_lt h2⟩
  · exact Or.inl rfl
  · exact Or.inr ⟨rfl, not_lt.mp h1⟩

/-- On arguments between 0 and 255 the numpy rounding lands in [0, 255]. -/
theorem np_round_bounds {q : ℚ} (h0 : 0 ≤ q) (h255 : q ≤ 255) :
    0 ≤ np_round q ∧ np_round q ≤ 255 := by
  have hfle : (Int.floor q : ℚ) ≤ q := Int.floor_le q
  have hf0 : 0 ≤ Int.floor q := Int.floor_nonneg.mpr h0
  have hf255 : Int.floor q ≤ 255 := by
    have h := Int.floor_le_floor (α := ℚ) h255
    simpa using h
  rcases np_round_eq_floor_or q with h | ⟨h, hhalf⟩
  · exact ⟨h ▸ hf0, h ▸ hf255⟩
  · rw [h]
    refine ⟨by omega, ?_⟩
    by_contra hcon
    have h1 : (255 : ℤ) ≤ Int.floor q := by omega
    have h2 : (255 : ℚ) ≤ (Int.floor q : ℚ) := by exact_mod_cast h1
    linarith

set_option maxRecDepth 4096 in
/-- Every byte renders as exactly two hexadecimal characters. -/
theorem pyHex02_length_two : ∀ n : ℕ, n < 256 → (pyHex02 n).length = 2 := by
  decide

/-- Claim C10: on a sequence of at least three components lying in [0, 1],
`rgb2hex` returns a seven-character string of the form #RRGGBB whose three
two-digit hexadecimal fields are the rounded values of the first three
components scaled by 255, and any further components are ignored. -/
theorem rgb2hex_format (rgb : List ℚ) (h3 : 3 ≤ rgb.length)
    (hrange : ∀ x ∈ rgb, 0 ≤ x ∧ x ≤ 1) :
    ∃ s, rgb2hex rgb = some s
      ∧ s.length = 7
      ∧ s = "#" ++ pyHex02 (np_round (rgb.getD 0 0 * 255)).toNat
          ++ pyHex02 (np_round (rgb.getD 1 0 * 255)).toNat
          ++ pyHex02 (np_round (rgb.getD 2 0 * 255)).toNat
      ∧ ∀ extra : List ℚ, rgb2hex (rgb ++ extra) = some s := by
  rcases rgb with _ | ⟨r, _ | ⟨g, _ | ⟨b, rest⟩⟩⟩
  · simp at h3
  · simp at h3
  · simp at h3
  · have hb : ∀ x : ℚ, 0 ≤ x → x ≤ 1 → (np_round (x * 255)).toNat ≤ 255 := by
      intro x hx0 hx1
      have h255 : x * 255 ≤ 255 := by linarith
      have h0 : 0 ≤ x * 255 := by linarith
      exact Int.toNat_le.mpr (np_round_bounds h0 h255).2
    have hr := hrange r (by simp)
    have hg := hrange g (by simp)
    have hbb := hrange b (by simp)
    refine ⟨_, rfl, ?_, rfl, fun extra => rfl⟩
    have l1 := pyHex02_length_two (np_round (r * 255)).toNat
      (Nat.lt_succ_of_le (hb r hr.1 hr.2))
    have l2 := pyHex02_length_two (np_round (g * 255)).toNat
      (Nat.lt_succ_of_le (hb g hg.1 hg.2))
    have l3 := pyHex02_length_two (np_round (b * 255)).toNat
      (Nat.lt_succ_of_le (hb b hbb.1 hbb.2))
    show ("#" ++ pyHex02 (np_round (r * 255)).toNat
      ++ pyHex02 (np_round (g * 255)).toNat
      ++ pyHex02 (np_round (b * 255)).toNat).length = 7
    rw [String.length_append, String.length_append, String.length_append,
      l1, l2, l3]
    rfl

/-- Witness for the rgb2hex theorem at the rgba sequence [0, 1, 1, 1]. -/
theorem rgb2hex_format_witness :
    ∃ s, rgb2hex [0, 1, 1, 1] = some s
      ∧ s.length = 7
      ∧ s = "#" ++ pyHex02 (np_round (([0, 1, 1, 1] : List ℚ).getD 0 0 * 255)).toNat
          ++ pyHex02 (np_round (([0, 1, 1, 1] : List ℚ).getD 1 0 * 255)).toNat
          ++ pyHex02 (np_round (([0, 1, 1, 1] : List ℚ).getD 2 0 * 255)).toNat
      ∧ ∀ extra : List ℚ, rgb2hex ([0, 1, 1, 1] ++ extra) = some s :=
  rgb2hex_format [0, 1, 1, 1] (by decide) (by decide)

end TraceSankey
